import Mathlib

/-!
# Circular queue (`src/src/circular_queue.c`)

A shallow embedding of the array-backed circular queue and machine-checked
statements about it.

Modelling conventions

* `void *` handles are natural numbers, `NULL` is `0`.
* `size_t` is a natural number below `2 ^ 64`; every `size_t` addition and
  subtraction of the source is reduced modulo `2 ^ 64` explicitly.
* `int` results that come from a `size_t` field go through `toInt`, the
  wrapping conversion to a 32 bit two's complement integer.
* The backing store `queue->data` is a function from slot index to handle.
  The number of slots of the block that `malloc` returned is kept next to the
  fields of the struct as `slots`; it is `blockSlots maxSize`, the wrapping
  `size_t` product `sizeof(void *) * maxSize` divided by `sizeof(void *)`, and
  it is below `capacity` once the product wraps.  An access at an index
  `≥ slots` and a remainder by a zero `capacity` are reported as
  `Run.undefined`.  `Queue_new` receives the indeterminate content that
  `malloc` leaves in the block as its argument `mem`.
* The value returned by `pthread_rwlock_wrlock` / `pthread_rwlock_rdlock` is an
  input `ret` of every operation; `0` means the lock was acquired.
* Every function is modelled for a non-null `struct Queue *` whose pointee is
  the `Queue` value, and returns the pointee after the call next to the C
  return value.
* The `for` loop of `Queue_find` is run with a budget (`fuel`) of loop-condition
  evaluations; `Run.outOfFuel` means the budget was used up before the loop
  ended.
-/

namespace CircularQueue

/-- An untyped element handle (`void *`). -/
abbrev Ptr := Nat

/-- The null handle. -/
def NULL : Ptr := 0

/-- Number of values of the type `size_t` (64 bit). -/
def SIZE_RANGE : Nat := 2 ^ 64

/-- Largest `size_t`. -/
def SIZE_MAX : Nat := 2 ^ 64 - 1

/-- The value of `sizeof(void *)` (64 bit pointers). -/
def PTR_SIZE : Nat := 8

/-- Number of slots of the block returned by `malloc(sizeof(void *) * maxSize)`:
the product is taken in `size_t` and wraps. -/
def blockSlots (maxSize : Nat) : Nat := (PTR_SIZE * maxSize % SIZE_RANGE) / PTR_SIZE

/-- Largest `int` (32 bit). -/
def INT_MAX : Int := 2 ^ 31 - 1

/-- The errno value `EDEADLK` (Linux). -/
def EDEADLK : Int := 35

/-- The errno value `EAGAIN` (Linux). -/
def EAGAIN : Int := 11

/-- The errno value `EINVAL` (Linux). -/
def EINVAL : Int := 22

/-- Conversion of a `size_t` value to `int`, as in `int size = queue->size;`:
the value is reduced modulo `2 ^ 32` and read as two's complement. -/
def toInt (n : Nat) : Int :=
  if n % 2 ^ 32 < 2 ^ 31 then ((n % 2 ^ 32 : Nat) : Int) else ((n % 2 ^ 32 : Nat) : Int) - 2 ^ 32

/-- Outcome of running a C function of the queue. -/
inductive Run (α : Type) where
  /-- The call returned. -/
  | returned (a : α)
  /-- An `assert` failed, the process is aborted. -/
  | assertFailed
  /-- Undefined behaviour: a slot outside the allocated block was accessed, or
  a remainder by zero was taken. -/
  | undefined
  /-- The loop budget ran out before the call returned. -/
  | outOfFuel

/-- Sequencing of outcomes. -/
def Run.bind {α β : Type} (r : Run α) (f : α → Run β) : Run β :=
  match r with
  | .returned a => f a
  | .assertFailed => .assertFailed
  | .undefined => .undefined
  | .outOfFuel => .outOfFuel

/-- The fields of `struct Queue` other than the lock, and the size of the block
that `data` points to. -/
structure Queue where
  /-- Slot contents of `data`. -/
  data : Nat → Ptr
  /-- Capacity of the queue. -/
  capacity : Nat
  /-- Position of the first element. -/
  head : Nat
  /-- Position after the last element. -/
  tail : Nat
  /-- Current number of elements. -/
  size : Nat
  /-- Number of slots of the block allocated for `data`. -/
  slots : Nat

/-- The comparator type `Queue_matchFn`: `matchFn userArg ptr`. -/
abbrev Queue_matchFn := Ptr → Ptr → Int

/-- Embedding of `Queue_empty`. -/
def Queue_empty (queue : Queue) (ret : Int) : Run (Int × Queue) :=
  if ret = EDEADLK then .returned (-1, queue)
  else if ret = EAGAIN then .returned (-1, queue)
  else if ret = EINVAL then .assertFailed
  else if queue.size = 0 then .returned (1, queue)
  else .returned (0, queue)

/-- Embedding of `Queue_new`.  `mem` is the content of the freshly allocated
block, `ret` the lock result seen by the `Queue_empty` call of the final
assertion.  Both allocations are taken to succeed; the block for `data` has
`blockSlots maxSize` slots. -/
def Queue_new (maxSize : Nat) (mem : Nat → Ptr) (ret : Int) : Run Queue :=
  if maxSize = 0 then .assertFailed
  else
    let queue : Queue :=
      { data := mem, capacity := maxSize, head := 0, tail := 0, size := 0,
        slots := blockSlots maxSize }
    (Queue_empty queue ret).bind fun p =>
      if p.1 ≠ 0 then .returned p.2 else .assertFailed

/-- Embedding of `Queue_add`. -/
def Queue_add (queue : Queue) (ret : Int) (data : Ptr) : Run (Int × Queue) :=
  if ret = EDEADLK then .returned (-1, queue)
  else if ret = EINVAL then .assertFailed
  else if queue.size = queue.capacity then .returned (0, queue)
  else if queue.slots ≤ queue.tail then .undefined
  else if queue.capacity = 0 then .undefined
  else .returned (1,
    { queue with
      data := Function.update queue.data queue.tail data
      tail := ((queue.tail + 1) % SIZE_RANGE) % queue.capacity
      size := (queue.size + 1) % SIZE_RANGE })

/-- Embedding of `Queue_remove`. -/
def Queue_remove (queue : Queue) (ret : Int) : Run (Ptr × Queue) :=
  if ret = EDEADLK ∨ queue.size = 0 then .returned (NULL, queue)
  else if ret = EINVAL then .assertFailed
  else if queue.slots ≤ queue.head then .undefined
  else if queue.capacity = 0 then .undefined
  else .returned (queue.data queue.head,
    { queue with
      head := ((queue.head + 1) % SIZE_RANGE) % queue.capacity
      size := (queue.size + SIZE_RANGE - 1) % SIZE_RANGE })

/-- The loop `for (i = head; i <= tail; i = (i + 1) % capacity)` of
`Queue_find`, entered with loop variable `i`; one unit of fuel is spent on every
evaluation of the loop condition. -/
def findLoop (queue : Queue) (matchFn : Queue_matchFn) (userArg : Ptr) :
    Nat → Nat → Run (Ptr × Queue)
  | 0, _ => .outOfFuel
  | fuel + 1, i =>
    if i ≤ queue.tail then
      if queue.slots ≤ i then .undefined
      else if matchFn userArg (queue.data i) = 0 then .returned (queue.data i, queue)
      else if queue.capacity = 0 then .undefined
      else findLoop queue matchFn userArg fuel (((i + 1) % SIZE_RANGE) % queue.capacity)
    else .returned (NULL, queue)

/-- Embedding of `Queue_find`. -/
def Queue_find (fuel : Nat) (queue : Queue) (ret : Int) (matchFn : Queue_matchFn)
    (userArg : Ptr) : Run (Ptr × Queue) :=
  if ret = EDEADLK ∨ queue.size = 0 then .returned (NULL, queue)
  else if ret = EAGAIN then .returned (NULL, queue)
  else if ret = EINVAL then .assertFailed
  else findLoop queue matchFn userArg fuel queue.head

/-- Embedding of `Queue_full`. -/
def Queue_full (queue : Queue) (ret : Int) : Run (Int × Queue) :=
  if ret = EDEADLK then .returned (-1, queue)
  else if ret = EAGAIN then .returned (-1, queue)
  else if ret = EINVAL then .assertFailed
  else if queue.size = queue.capacity then .returned (1, queue)
  else .returned (0, queue)

/-- Embedding of `Queue_size`. -/
def Queue_size (queue : Queue) (ret : Int) : Run (Int × Queue) :=
  if ret = EDEADLK then .returned (-1, queue)
  else if ret = EAGAIN then .returned (-1, queue)
  else if ret = EINVAL then .assertFailed
  else .returned (toInt queue.size, queue)

/-- Embedding of `Queue_cap`. -/
def Queue_cap (queue : Queue) (ret : Int) : Run (Int × Queue) :=
  if ret = EDEADLK then .returned (-1, queue)
  else if ret = EAGAIN then .returned (-1, queue)
  else if ret = EINVAL then .assertFailed
  else .returned (toInt queue.capacity, queue)

/-- Embedding of `Queue_peek_head`. -/
def Queue_peek_head (queue : Queue) (ret : Int) : Run (Ptr × Queue) :=
  if ret = EDEADLK ∨ queue.size = 0 then .returned (NULL, queue)
  else if ret = EAGAIN then .returned (NULL, queue)
  else if ret = EINVAL then .assertFailed
  else if queue.slots ≤ queue.head then .undefined
  else .returned (queue.data queue.head, queue)

/-- Embedding of `Queue_peek_tail`. -/
def Queue_peek_tail (queue : Queue) (ret : Int) : Run (Ptr × Queue) :=
  if ret = EDEADLK ∨ queue.size = 0 then .returned (NULL, queue)
  else if ret = EAGAIN then .returned (NULL, queue)
  else if ret = EINVAL then .assertFailed
  else if ¬ (1 ≤ queue.tail) then .assertFailed
  else if queue.slots ≤ queue.tail - 1 then .undefined
  else .returned (queue.data (queue.tail - 1), queue)

/-! ## Sequences of calls -/

/-- A mutating call. -/
inductive Op where
  /-- The call `Queue_add(queue, x)`. -/
  | add (x : Ptr)
  /-- The call `Queue_remove(queue)`. -/
  | remove

/-- The value a call returns: an `int` or a handle. -/
inductive Res where
  /-- An `int` result. -/
  | int (r : Int)
  /-- A `void *` result. -/
  | ptr (p : Ptr)
  deriving DecidableEq

/-- One mutating call, the lock being acquired. -/
def step (queue : Queue) : Op → Run (Res × Queue)
  | .add x => (Queue_add queue 0 x).bind fun p => .returned (.int p.1, p.2)
  | .remove => (Queue_remove queue 0).bind fun p => .returned (.ptr p.1, p.2)

/-- A sequence of mutating calls, with the list of their results. -/
def runOps : Queue → List Op → Run (List Res × Queue)
  | queue, [] => .returned ([], queue)
  | queue, o :: os =>
    (step queue o).bind fun p =>
      (runOps p.2 os).bind fun r => .returned (p.1 :: r.1, r.2)

/-- Any call of the public interface other than construction and destruction. -/
inductive Call where
  /-- The call `Queue_add(queue, x)`. -/
  | add (x : Ptr)
  /-- The call `Queue_remove(queue)`. -/
  | remove
  /-- The call `Queue_find(queue, matchFn, userArg)`. -/
  | find (matchFn : Queue_matchFn) (userArg : Ptr)
  /-- The call `Queue_empty(queue)`. -/
  | empty
  /-- The call `Queue_full(queue)`. -/
  | full
  /-- The call `Queue_size(queue)`. -/
  | size
  /-- The call `Queue_cap(queue)`. -/
  | cap
  /-- The call `Queue_peek_head(queue)`. -/
  | peekHead
  /-- The call `Queue_peek_tail(queue)`. -/
  | peekTail

/-- One call of the interface, the lock being acquired. -/
def call (fuel : Nat) (queue : Queue) : Call → Run (Res × Queue)
  | .add x => (Queue_add queue 0 x).bind fun p => .returned (.int p.1, p.2)
  | .remove => (Queue_remove queue 0).bind fun p => .returned (.ptr p.1, p.2)
  | .find matchFn userArg =>
    (Queue_find fuel queue 0 matchFn userArg).bind fun p => .returned (.ptr p.1, p.2)
  | .empty => (Queue_empty queue 0).bind fun p => .returned (.int p.1, p.2)
  | .full => (Queue_full queue 0).bind fun p => .returned (.int p.1, p.2)
  | .size => (Queue_size queue 0).bind fun p => .returned (.int p.1, p.2)
  | .cap => (Queue_cap queue 0).bind fun p => .returned (.int p.1, p.2)
  | .peekHead => (Queue_peek_head queue 0).bind fun p => .returned (.ptr p.1, p.2)
  | .peekTail => (Queue_peek_tail queue 0).bind fun p => .returned (.ptr p.1, p.2)

/-- A sequence of calls of the interface, with the list of their results. -/
def runCalls (fuel : Nat) : Queue → List Call → Run (List Res × Queue)
  | queue, [] => .returned ([], queue)
  | queue, c :: cs =>
    (call fuel queue c).bind fun p =>
      (runCalls fuel p.2 cs).bind fun r => .returned (p.1 :: r.1, r.2)

/-! ## The bounded FIFO of the specification -/

/-- The abstract bounded list of the specification, one operation: `add` appends
and returns 1 when the length is below `C`, otherwise returns 0 and leaves the
list; `remove` returns and drops the front element, or returns `NULL` on the
empty list. -/
def specStep (C : Nat) (l : List Ptr) : Op → Res × List Ptr
  | .add x => if l.length < C then (.int 1, l ++ [x]) else (.int 0, l)
  | .remove =>
    match l with
    | [] => (.ptr NULL, [])
    | y :: t => (.ptr y, t)

/-- The abstract bounded list of the specification, a sequence of operations. -/
def specRun (C : Nat) : List Ptr → List Op → List Res × List Ptr
  | l, [] => ([], l)
  | l, o :: os =>
    ((specStep C l o).1 :: (specRun C (specStep C l o).2 os).1,
      (specRun C (specStep C l o).2 os).2)

/-- The live elements of a queue in logical order: the slots at
`head, head + 1, …, head + size - 1` modulo `capacity`. -/
def contents (queue : Queue) : List Ptr :=
  (List.range queue.size).map fun k => queue.data ((queue.head + k) % queue.capacity)

/-- The representation invariant of the queue: the index invariant, and every
live slot lies inside the allocated block. -/
def Inv (queue : Queue) : Prop :=
  0 < queue.capacity ∧ queue.capacity ≤ SIZE_MAX ∧ queue.head < queue.capacity ∧
    queue.size ≤ queue.capacity ∧ queue.tail = (queue.head + queue.size) % queue.capacity ∧
    ∀ k, k < queue.size → (queue.head + k) % queue.capacity < queue.slots

/-- The first handle of a list that the comparator matches against `userArg`,
`NULL` when there is none: the result the specification asks of `find`. -/
def specFind (matchFn : Queue_matchFn) (userArg : Ptr) : List Ptr → Ptr
  | [] => NULL
  | y :: t => if matchFn userArg y = 0 then y else specFind matchFn userArg t

/-- Comparator that matches a handle exactly when it equals the argument. -/
def sameHandle : Queue_matchFn := fun userArg ptr => if userArg = ptr then 0 else 1

/-- Comparator that matches nothing. -/
def neverMatch : Queue_matchFn := fun _ _ => 1

/-- One if the call is a `Queue_remove` entered with a nonzero `size` field,
zero otherwise. -/
def removeOnNonEmpty (queue : Queue) : Op → Nat
  | .remove => if queue.size ≠ 0 then 1 else 0
  | .add _ => 0

/-- The number of `Queue_remove` calls of a sequence that are performed on a
non-empty queue, the sequence being run from `queue`. -/
def removesOnNonEmpty : Queue → List Op → Run Nat
  | _, [] => .returned 0
  | queue, o :: os =>
    (step queue o).bind fun p =>
      (removesOnNonEmpty p.2 os).bind fun k => .returned (removeOnNonEmpty queue o + k)

/-- The loop of `Queue_find` once more, recording instead of the result the slot
indices `i` at which `queue->data[i]` is read and passed to `matchFn`, in the
order of the reads. -/
def findLoopReads (queue : Queue) (matchFn : Queue_matchFn) (userArg : Ptr) :
    Nat → Nat → List Nat
  | 0, _ => []
  | fuel + 1, i =>
    if i ≤ queue.tail then
      if queue.slots ≤ i then [i]
      else if matchFn userArg (queue.data i) = 0 then [i]
      else if queue.capacity = 0 then [i]
      else i :: findLoopReads queue matchFn userArg fuel (((i + 1) % SIZE_RANGE) % queue.capacity)
    else []

/-- The slot indices read by a call of `Queue_find`, in the order of the reads. -/
def Queue_find_reads (fuel : Nat) (queue : Queue) (ret : Int) (matchFn : Queue_matchFn)
    (userArg : Ptr) : List Nat :=
  if ret = EDEADLK ∨ queue.size = 0 then []
  else if ret = EAGAIN then []
  else if ret = EINVAL then []
  else findLoopReads queue matchFn userArg fuel queue.head

/-- The live range of a queue: the indices `(head + k) mod capacity`, `k < size`. -/
def liveRange (queue : Queue) : List Nat :=
  (List.range queue.size).map fun k => (queue.head + k) % queue.capacity

theorem size_max_succ : SIZE_MAX + 1 = SIZE_RANGE := by
  norm_num [SIZE_MAX, SIZE_RANGE]

theorem blockSlots_eq (C : Nat) (h : PTR_SIZE * C ≤ SIZE_MAX) : blockSlots C = C := by
  simp only [PTR_SIZE, SIZE_MAX] at h
  simp only [blockSlots, PTR_SIZE, SIZE_RANGE]
  omega

theorem new_eq (C : Nat) (hC : 1 ≤ C) (mem : Nat → Ptr) :
    Queue_new C mem 0 = .returned ⟨mem, C, 0, 0, 0, blockSlots C⟩ := by
  have h0 : C ≠ 0 := by omega
  simp [Queue_new, Queue_empty, Run.bind, h0, EDEADLK, EAGAIN, EINVAL]

theorem new_inv (C : Nat) (hC : 1 ≤ C) (hmax : C ≤ SIZE_MAX) (mem : Nat → Ptr) :
    Inv ⟨mem, C, 0, 0, 0, blockSlots C⟩ := by
  refine ⟨hC, hmax, hC, Nat.zero_le _, ?_, ?_⟩
  · simp
  · intro k hk
    exact absurd hk (Nat.not_lt_zero k)

theorem inv_tail_lt (q : Queue) (hinv : Inv q) : q.tail < q.capacity := by
  obtain ⟨hpos, -, -, -, htail, -⟩ := hinv
  rw [htail]
  exact Nat.mod_lt _ hpos

theorem inv_head_in_block (q : Queue) (hinv : Inv q) (h : 0 < q.size) : q.head < q.slots := by
  obtain ⟨-, -, hhead, -, -, hlive⟩ := hinv
  have := hlive 0 h
  rwa [Nat.add_zero, Nat.mod_eq_of_lt hhead] at this

theorem add_full_eq (q : Queue) (x : Ptr) (h : q.size = q.capacity) :
    Queue_add q 0 x = .returned (0, q) := by
  simp [Queue_add, h, EDEADLK, EINVAL]

theorem add_outside_eq (q : Queue) (x : Ptr) (h : q.size ≠ q.capacity)
    (ht : q.slots ≤ q.tail) : Queue_add q 0 x = .undefined := by
  simp [Queue_add, h, ht, EDEADLK, EINVAL]

theorem add_eq (q : Queue) (x : Ptr) (hinv : Inv q) (h : q.size < q.capacity)
    (ht : q.tail < q.slots) :
    Queue_add q 0 x = .returned (1,
      { q with
        data := Function.update q.data q.tail x
        tail := (q.head + (q.size + 1)) % q.capacity
        size := q.size + 1 }) := by
  have htl := inv_tail_lt q hinv
  obtain ⟨hpos, hmax, hhead, hsize, htail, -⟩ := hinv
  have hR := size_max_succ
  have h1 : (q.tail + 1) % SIZE_RANGE = q.tail + 1 := Nat.mod_eq_of_lt (by omega)
  have h2 : (q.size + 1) % SIZE_RANGE = q.size + 1 := Nat.mod_eq_of_lt (by omega)
  have h3 : (q.tail + 1) % q.capacity = (q.head + (q.size + 1)) % q.capacity := by
    rw [htail, Nat.mod_add_mod, Nat.add_assoc]
  have hne : q.size ≠ q.capacity := by omega
  have hnt : ¬ q.slots ≤ q.tail := by omega
  have hc0 : q.capacity ≠ 0 := by omega
  simp [Queue_add, hne, hnt, hc0, h1, h2, h3, EDEADLK, EINVAL]

theorem mod_add_inj (c h a b : Nat) (ha : a < c) (hb : b < c)
    (e : (h + a) % c = (h + b) % c) : a = b := by
  have e1 : h + a ≡ h + b [MOD c] := e
  have e2 : a ≡ b [MOD c] := Nat.ModEq.add_left_cancel' h e1
  have e3 : a % c = b % c := e2
  rwa [Nat.mod_eq_of_lt ha, Nat.mod_eq_of_lt hb] at e3

theorem add_inv (q : Queue) (x : Ptr) (hinv : Inv q) (h : q.size < q.capacity)
    (ht : q.tail < q.slots) :
    Inv { q with
      data := Function.update q.data q.tail x
      tail := (q.head + (q.size + 1)) % q.capacity
      size := q.size + 1 } := by
  obtain ⟨hpos, hmax, hhead, hsize, htail, hlive⟩ := hinv
  refine ⟨hpos, hmax, hhead, h, rfl, ?_⟩
  intro k hk
  show (q.head + k) % q.capacity < q.slots
  by_cases hks : k < q.size
  · exact hlive k hks
  · have e : k = q.size := by
      have : k < q.size + 1 := hk
      omega
    rw [e, ← htail]
    exact ht

theorem add_contents (q : Queue) (x : Ptr) (hinv : Inv q) (h : q.size < q.capacity) :
    contents { q with
      data := Function.update q.data q.tail x
      tail := (q.head + (q.size + 1)) % q.capacity
      size := q.size + 1 } = contents q ++ [x] := by
  obtain ⟨hpos, hmax, hhead, hsize, htail, -⟩ := hinv
  simp only [contents, List.range_succ, List.map_append, List.map_cons, List.map_nil]
  congr 1
  · apply List.map_congr_left
    intro k hk
    have hk1 : k < q.size := List.mem_range.mp hk
    have hne : (q.head + k) % q.capacity ≠ q.tail := by
      rw [htail]
      intro e
      have := mod_add_inj q.capacity q.head k q.size (by omega) h e
      omega
    simp [Function.update, hne]
  · simp [Function.update, htail]

theorem remove_empty_eq (q : Queue) (h : q.size = 0) :
    Queue_remove q 0 = .returned (NULL, q) := by
  simp [Queue_remove, h]

theorem remove_eq (q : Queue) (hinv : Inv q) (h : 0 < q.size) :
    Queue_remove q 0 = .returned (q.data q.head,
      { q with
        head := (q.head + 1) % q.capacity
        size := q.size - 1 }) := by
  have hblock := inv_head_in_block q hinv h
  obtain ⟨hpos, hmax, hhead, hsize, htail, -⟩ := hinv
  have hR := size_max_succ
  have h1 : (q.head + 1) % SIZE_RANGE = q.head + 1 := Nat.mod_eq_of_lt (by omega)
  have h2 : (q.size + SIZE_RANGE - 1) % SIZE_RANGE = q.size - 1 := by
    have e : q.size + SIZE_RANGE - 1 = (q.size - 1) + SIZE_RANGE := by omega
    rw [e, Nat.add_mod_right]
    exact Nat.mod_eq_of_lt (by omega)
  have hne : q.size ≠ 0 := by omega
  have hnh : ¬ q.slots ≤ q.head := by omega
  have hc0 : q.capacity ≠ 0 := by omega
  simp [Queue_remove, hne, hnh, hc0, h1, h2, EDEADLK, EINVAL]

theorem remove_inv (q : Queue) (hinv : Inv q) (h : 0 < q.size) :
    Inv { q with
      head := (q.head + 1) % q.capacity
      size := q.size - 1 } := by
  obtain ⟨hpos, hmax, hhead, hsize, htail, hlive⟩ := hinv
  refine ⟨hpos, hmax, Nat.mod_lt _ hpos, ?_, ?_, ?_⟩
  · show q.size - 1 ≤ q.capacity
    omega
  · show q.tail = ((q.head + 1) % q.capacity + (q.size - 1)) % q.capacity
    rw [htail, Nat.mod_add_mod]
    congr 1
    omega
  · intro k hk
    show ((q.head + 1) % q.capacity + k) % q.capacity < q.slots
    have hk1 : k + 1 < q.size := by
      have : k < q.size - 1 := hk
      omega
    have := hlive (k + 1) hk1
    rw [Nat.mod_add_mod]
    have e : q.head + 1 + k = q.head + (k + 1) := by omega
    rwa [e]

theorem remove_contents (q : Queue) (hinv : Inv q) (h : 0 < q.size) :
    contents q = q.data q.head :: contents { q with
      head := (q.head + 1) % q.capacity
      size := q.size - 1 } := by
  obtain ⟨hpos, hmax, hhead, hsize, htail, -⟩ := hinv
  obtain ⟨n, hn⟩ : ∃ n, q.size = n + 1 := ⟨q.size - 1, by omega⟩
  simp only [contents, hn, Nat.add_sub_cancel, List.range_succ_eq_map, List.map_cons,
    List.map_map, Nat.add_zero, Nat.mod_eq_of_lt hhead]
  congr 1
  apply List.map_congr_left
  intro k _
  simp only [Function.comp, Nat.mod_add_mod]
  congr 2
  omega

theorem contents_length (q : Queue) : (contents q).length = q.size := by
  simp [contents]

theorem contents_nil (q : Queue) (h : q.size = 0) : contents q = [] := by
  simp [contents, h]

theorem bind_returned {α β : Type} (r : Run α) (f : α → Run β) (b : β)
    (h : r.bind f = .returned b) : ∃ a, r = .returned a ∧ f a = .returned b := by
  cases r with
  | returned a => exact ⟨a, rfl, h⟩
  | assertFailed => simp [Run.bind] at h
  | undefined => simp [Run.bind] at h
  | outOfFuel => simp [Run.bind] at h

/-! ## Refinement of the bounded list -/

theorem step_cases (q : Queue) (hinv : Inv q) (o : Op) :
    (∃ q1, step q o = .returned ((specStep q.capacity (contents q) o).1, q1) ∧ Inv q1 ∧
      q1.capacity = q.capacity ∧ q1.slots = q.slots ∧
      contents q1 = (specStep q.capacity (contents q) o).2 ∧
      q1.size + removeOnNonEmpty q o =
        q.size + [(specStep q.capacity (contents q) o).1].count (Res.int 1)) ∨
    (step q o = .undefined ∧ q.slots ≤ q.tail) := by
  cases o with
  | add x =>
    by_cases h : q.size < q.capacity
    · by_cases ht : q.tail < q.slots
      · left
        refine ⟨_, ?_, add_inv q x hinv h ht, rfl, rfl, ?_, ?_⟩
        · simp [step, add_eq q x hinv h ht, Run.bind, specStep, contents_length, h]
        · simp [specStep, contents_length, h, add_contents q x hinv h]
        · simp [specStep, contents_length, h, removeOnNonEmpty]
      · right
        have hle : q.slots ≤ q.tail := by omega
        have hne : q.size ≠ q.capacity := by omega
        exact ⟨by simp [step, add_outside_eq q x hne hle, Run.bind], hle⟩
    · left
      have he : q.size = q.capacity := by
        have := hinv.2.2.2.1
        omega
      refine ⟨q, ?_, hinv, rfl, rfl, ?_, ?_⟩
      · simp [step, add_full_eq q x he, Run.bind, specStep, contents_length, h]
      · simp [specStep, contents_length, h]
      · simp [specStep, contents_length, h, removeOnNonEmpty]
  | remove =>
    left
    by_cases h : 0 < q.size
    · have hne : q.size ≠ 0 := by omega
      refine ⟨_, ?_, remove_inv q hinv h, rfl, rfl, ?_, ?_⟩
      · simp [step, remove_eq q hinv h, Run.bind, specStep, remove_contents q hinv h]
      · simp [specStep, remove_contents q hinv h]
      · simp [specStep, remove_contents q hinv h, removeOnNonEmpty, hne]
        omega
    · have he : q.size = 0 := by omega
      refine ⟨q, ?_, hinv, rfl, rfl, ?_, ?_⟩
      · simp [step, remove_empty_eq q he, Run.bind, specStep, contents_nil q he]
      · simp [specStep, contents_nil q he]
      · simp [specStep, contents_nil q he, removeOnNonEmpty, he]

theorem count_cons_one (r : Res) (rs : List Res) :
    (r :: rs).count (Res.int 1) = [r].count (Res.int 1) + rs.count (Res.int 1) := by
  rw [← List.count_append]
  rfl

theorem runOps_refines (ops : List Op) : ∀ (q : Queue), Inv q → q.capacity ≤ q.slots →
    ∃ q1 k, runOps q ops = .returned ((specRun q.capacity (contents q) ops).1, q1) ∧
      removesOnNonEmpty q ops = .returned k ∧ Inv q1 ∧
      q1.capacity = q.capacity ∧ q1.slots = q.slots ∧
      contents q1 = (specRun q.capacity (contents q) ops).2 ∧
      q1.size + k = q.size + ((specRun q.capacity (contents q) ops).1).count (Res.int 1) := by
  induction ops with
  | nil =>
    intro q hinv _
    exact ⟨q, 0, rfl, rfl, hinv, rfl, rfl, rfl, by simp [specRun]⟩
  | cons o os ih =>
    intro q hinv hblock
    rcases step_cases q hinv o with ⟨q1, hs, hinv1, hcap1, hsl1, hc1, hn1⟩ | ⟨-, hout⟩
    · obtain ⟨q2, k, hr, hk, hinv2, hcap2, hsl2, hc2, hn2⟩ :=
        ih q1 hinv1 (by rw [hcap1, hsl1]; exact hblock)
      refine ⟨q2, removeOnNonEmpty q o + k, ?_, ?_, hinv2, hcap2.trans hcap1,
        hsl2.trans hsl1, ?_, ?_⟩
      · simp [runOps, hs, hr, Run.bind, specRun, hcap1, hc1]
      · simp [removesOnNonEmpty, hs, hk, Run.bind]
      · simp [specRun, hc2, hcap1, hc1]
      · rw [hcap1, hc1] at hn2
        simp only [specRun]
        rw [count_cons_one]
        omega
    · have := inv_tail_lt q hinv
      omega

theorem runOps_reached (ops : List Op) : ∀ (q : Queue), Inv q →
    ∀ (rs : List Res) (q1 : Queue), runOps q ops = .returned (rs, q1) →
      rs = (specRun q.capacity (contents q) ops).1 ∧ Inv q1 ∧ q1.capacity = q.capacity ∧
      contents q1 = (specRun q.capacity (contents q) ops).2 := by
  induction ops with
  | nil =>
    intro q hinv rs q1 h
    simp [runOps] at h
    obtain ⟨h1, h2⟩ := h
    subst h1 h2
    exact ⟨rfl, hinv, rfl, rfl⟩
  | cons o os ih =>
    intro q hinv rs q2 h
    simp only [runOps] at h
    obtain ⟨a, ha, hf⟩ := bind_returned _ _ _ h
    obtain ⟨b, hb, hg⟩ := bind_returned _ _ _ hf
    simp at hg
    rcases step_cases q hinv o with ⟨q1, hs, hinv1, hcap1, -, hc1, -⟩ | ⟨hu, -⟩
    · rw [hs] at ha
      simp at ha
      have hb1 : runOps q1 os = .returned (b.1, b.2) := by rw [← hb, ← ha]
      obtain ⟨hrs, hinv2, hcap2, hc2⟩ := ih q1 hinv1 b.1 b.2 hb1
      rw [hcap1, hc1] at hrs hc2
      refine ⟨?_, ?_, ?_, ?_⟩
      · rw [← hg.1, ← ha, hrs]
        simp [specRun]
      · rw [← hg.2]; exact hinv2
      · rw [← hg.2]; exact hcap2.trans hcap1
      · rw [← hg.2, hc2]
        simp [specRun]
    · rw [hu] at ha
      simp at ha

theorem new_refines (C : Nat) (hC : 1 ≤ C) (hblock : PTR_SIZE * C ≤ SIZE_MAX) (mem : Nat → Ptr)
    (ops : List Op) :
    ∃ q0 q k, Queue_new C mem 0 = .returned q0 ∧
      runOps q0 ops = .returned ((specRun C [] ops).1, q) ∧
      removesOnNonEmpty q0 ops = .returned k ∧ Inv q ∧ q.capacity = C ∧
      contents q = (specRun C [] ops).2 ∧
      q.size + k = ((specRun C [] ops).1).count (Res.int 1) := by
  have hmax : C ≤ SIZE_MAX := by
    simp only [PTR_SIZE] at hblock
    omega
  obtain ⟨q, k, hr, hk, hinv, hcap, -, hc, hn⟩ := runOps_refines ops _ (new_inv C hC hmax mem)
    (by simp [blockSlots_eq C hblock])
  refine ⟨_, q, k, new_eq C hC mem, hr, hk, hinv, hcap, hc, ?_⟩
  simpa using hn

theorem new_reached (C : Nat) (hC : 1 ≤ C) (hmax : C ≤ SIZE_MAX) (mem : Nat → Ptr)
    (ops : List Op) (rs : List Res) (q0 q : Queue) (hnew : Queue_new C mem 0 = .returned q0)
    (hrun : runOps q0 ops = .returned (rs, q)) :
    rs = (specRun C [] ops).1 ∧ Inv q ∧ q.capacity = C ∧ contents q = (specRun C [] ops).2 := by
  rw [new_eq C hC mem] at hnew
  simp at hnew
  subst hnew
  exact runOps_reached ops _ (new_inv C hC hmax mem) rs q hrun

theorem specRun_append (C : Nat) (ops1 ops2 : List Op) : ∀ (l : List Ptr),
    specRun C l (ops1 ++ ops2) =
      ((specRun C l ops1).1 ++ (specRun C (specRun C l ops1).2 ops2).1,
        (specRun C (specRun C l ops1).2 ops2).2) := by
  induction ops1 with
  | nil => intro l; simp [specRun]
  | cons o os ih => intro l; simp [specRun, ih]

theorem specRun_adds (C : Nat) (es : List Ptr) : ∀ (l : List Ptr), l.length + es.length ≤ C →
    specRun C l (es.map Op.add) = (List.replicate es.length (Res.int 1), l ++ es) := by
  induction es with
  | nil => intro l _; simp [specRun]
  | cons e es ih =>
    intro l h
    have h1 : l.length < C := by simp at h; omega
    have h2 : (l ++ [e]).length + es.length ≤ C := by simp at h ⊢; omega
    simp [specRun, specStep, h1, ih (l ++ [e]) h2, List.replicate_succ]

theorem specRun_removes (C : Nat) (es : List Ptr) :
    specRun C es (List.replicate es.length Op.remove) = (es.map Res.ptr, []) := by
  induction es with
  | nil => simp [specRun]
  | cons e es ih => simp [specRun, specStep, List.replicate_succ, ih]

theorem specRun_removes_take (C : Nat) : ∀ (j : Nat) (l : List Ptr), j ≤ l.length →
    specRun C l (List.replicate j Op.remove) = ((l.take j).map Res.ptr, l.drop j) := by
  intro j
  induction j with
  | zero => intro l _; simp [specRun]
  | succ n ih =>
    intro l h
    cases l with
    | nil => simp at h
    | cons y t =>
      have h1 : n ≤ t.length := by simpa using h
      simp [specRun, specStep, List.replicate_succ, ih t h1]

/-! ## Queries leave the state alone; the invariant along call sequences -/

theorem findLoop_state (q : Queue) (m : Queue_matchFn) (a : Ptr) :
    ∀ (fuel i : Nat) (p : Ptr) (q1 : Queue),
      findLoop q m a fuel i = .returned (p, q1) → q1 = q := by
  intro fuel
  induction fuel with
  | zero => intro i p q1 h; simp [findLoop] at h
  | succ n ih =>
    intro i p q1 h
    simp only [findLoop] at h
    split_ifs at h <;>
      first
        | exact ih _ _ _ h
        | (simp at h; exact h.2.symm)

theorem find_state_any (fuel : Nat) (q : Queue) (ret : Int) (m : Queue_matchFn) (a : Ptr)
    (p : Ptr) (q1 : Queue) (h : Queue_find fuel q ret m a = .returned (p, q1)) : q1 = q := by
  simp only [Queue_find] at h
  split_ifs at h with h1 h2 h3
  · simp at h
    exact h.2.symm
  · simp at h
    exact h.2.symm
  · exact findLoop_state q m a _ _ _ _ h

theorem find_state (fuel : Nat) (q : Queue) (m : Queue_matchFn) (a : Ptr) (p : Ptr)
    (q1 : Queue) (h : Queue_find fuel q 0 m a = .returned (p, q1)) : q1 = q :=
  find_state_any fuel q 0 m a p q1 h

theorem empty_state (q : Queue) (r : Int) (q1 : Queue)
    (h : Queue_empty q 0 = .returned (r, q1)) : q1 = q := by
  simp only [Queue_empty] at h
  split_ifs at h <;> simp at h <;> exact h.2.symm

theorem full_state (q : Queue) (r : Int) (q1 : Queue)
    (h : Queue_full q 0 = .returned (r, q1)) : q1 = q := by
  simp only [Queue_full] at h
  split_ifs at h <;> simp at h <;> exact h.2.symm

theorem size_state (q : Queue) (r : Int) (q1 : Queue)
    (h : Queue_size q 0 = .returned (r, q1)) : q1 = q := by
  simp only [Queue_size] at h
  split_ifs at h <;> simp at h <;> exact h.2.symm

theorem cap_state (q : Queue) (r : Int) (q1 : Queue)
    (h : Queue_cap q 0 = .returned (r, q1)) : q1 = q := by
  simp only [Queue_cap] at h
  split_ifs at h <;> simp at h <;> exact h.2.symm

theorem peek_head_state (q : Queue) (p : Ptr) (q1 : Queue)
    (h : Queue_peek_head q 0 = .returned (p, q1)) : q1 = q := by
  simp only [Queue_peek_head] at h
  split_ifs at h <;> simp at h <;> exact h.2.symm

theorem peek_tail_state (q : Queue) (p : Ptr) (q1 : Queue)
    (h : Queue_peek_tail q 0 = .returned (p, q1)) : q1 = q := by
  simp only [Queue_peek_tail] at h
  split_ifs at h <;> simp at h <;> exact h.2.symm

theorem add_preserves (q : Queue) (hinv : Inv q) (x : Ptr) (r : Int) (q1 : Queue)
    (h : Queue_add q 0 x = .returned (r, q1)) : Inv q1 ∧ q1.capacity = q.capacity := by
  by_cases hs : q.size < q.capacity
  · by_cases ht : q.tail < q.slots
    · rw [add_eq q x hinv hs ht] at h
      simp at h
      rw [← h.2]
      exact ⟨add_inv q x hinv hs ht, rfl⟩
    · rw [add_outside_eq q x (by omega) (by omega)] at h
      simp at h
  · have he : q.size = q.capacity := by
      have := hinv.2.2.2.1
      omega
    rw [add_full_eq q x he] at h
    simp at h
    rw [← h.2]
    exact ⟨hinv, rfl⟩

theorem remove_preserves (q : Queue) (hinv : Inv q) (p : Ptr) (q1 : Queue)
    (h : Queue_remove q 0 = .returned (p, q1)) :
    Inv q1 ∧ q1.capacity = q.capacity ∧ q1.size ≤ q.size := by
  by_cases hs : 0 < q.size
  · rw [remove_eq q hinv hs] at h
    simp at h
    rw [← h.2]
    exact ⟨remove_inv q hinv hs, rfl, Nat.sub_le _ _⟩
  · have he : q.size = 0 := by omega
    rw [remove_empty_eq q he] at h
    simp at h
    rw [← h.2]
    exact ⟨hinv, rfl, le_refl _⟩

theorem call_preserves (fuel : Nat) (q : Queue) (hinv : Inv q) (c : Call) (r : Res)
    (q1 : Queue) (h : call fuel q c = .returned (r, q1)) :
    Inv q1 ∧ q1.capacity = q.capacity := by
  cases c with
  | add x =>
    obtain ⟨a, ha, hf⟩ := bind_returned _ _ _ h
    simp at hf
    rw [← hf.2]
    exact add_preserves q hinv x a.1 a.2 ha
  | remove =>
    obtain ⟨a, ha, hf⟩ := bind_returned _ _ _ h
    simp at hf
    rw [← hf.2]
    exact ⟨(remove_preserves q hinv a.1 a.2 ha).1, (remove_preserves q hinv a.1 a.2 ha).2.1⟩
  | find m u =>
    obtain ⟨a, ha, hf⟩ := bind_returned _ _ _ h
    simp at hf
    rw [← hf.2, find_state fuel q m u a.1 a.2 ha]
    exact ⟨hinv, rfl⟩
  | empty =>
    obtain ⟨a, ha, hf⟩ := bind_returned _ _ _ h
    simp at hf
    rw [← hf.2, empty_state q a.1 a.2 ha]
    exact ⟨hinv, rfl⟩
  | full =>
    obtain ⟨a, ha, hf⟩ := bind_returned _ _ _ h
    simp at hf
    rw [← hf.2, full_state q a.1 a.2 ha]
    exact ⟨hinv, rfl⟩
  | size =>
    simp only [call] at h
    obtain ⟨a, ha, hf⟩ := bind_returned _ _ _ h
    simp at hf
    rw [← hf.2, size_state q a.1 a.2 ha]
    exact ⟨hinv, rfl⟩
  | cap =>
    simp only [call] at h
    obtain ⟨a, ha, hf⟩ := bind_returned _ _ _ h
    simp at hf
    rw [← hf.2, cap_state q a.1 a.2 ha]
    exact ⟨hinv, rfl⟩
  | peekHead =>
    obtain ⟨a, ha, hf⟩ := bind_returned _ _ _ h
    simp at hf
    rw [← hf.2, peek_head_state q a.1 a.2 ha]
    exact ⟨hinv, rfl⟩
  | peekTail =>
    obtain ⟨a, ha, hf⟩ := bind_returned _ _ _ h
    simp at hf
    rw [← hf.2, peek_tail_state q a.1 a.2 ha]
    exact ⟨hinv, rfl⟩

theorem runCalls_preserves (fuel : Nat) (calls : List Call) :
    ∀ (q : Queue), Inv q → ∀ (rs : List Res) (q1 : Queue),
      runCalls fuel q calls = .returned (rs, q1) → Inv q1 ∧ q1.capacity = q.capacity := by
  induction calls with
  | nil =>
    intro q hinv rs q1 h
    simp [runCalls] at h
    rw [← h.2]
    exact ⟨hinv, rfl⟩
  | cons c cs ih =>
    intro q hinv rs q1 h
    simp only [runCalls] at h
    obtain ⟨a, ha, hf⟩ := bind_returned _ _ _ h
    obtain ⟨b, hb, hg⟩ := bind_returned _ _ _ hf
    simp at hg
    have h1 := call_preserves fuel q hinv c a.1 a.2 ha
    have h2 := ih a.2 h1.1 b.1 b.2 hb
    rw [← hg.2]
    exact ⟨h2.1, h2.2.trans h1.2⟩

theorem toInt_small (n : Nat) (h : (n : Int) ≤ INT_MAX) : toInt n = (n : Int) := by
  have h1 : n < 2 ^ 31 := by
    have : (n : Int) < 2 ^ 31 := by
      simp only [INT_MAX] at h
      omega
    exact_mod_cast this
  have h2 : n % 2 ^ 32 = n := Nat.mod_eq_of_lt (by omega)
  unfold toInt
  rw [h2, if_pos h1]

/-! ## Queries under any lock result -/

theorem peek_head_state_any (q : Queue) (ret : Int) (p : Ptr) (q1 : Queue)
    (h : Queue_peek_head q ret = .returned (p, q1)) : q1 = q := by
  simp only [Queue_peek_head] at h
  split_ifs at h <;> simp at h <;> exact h.2.symm

theorem peek_tail_state_any (q : Queue) (ret : Int) (p : Ptr) (q1 : Queue)
    (h : Queue_peek_tail q ret = .returned (p, q1)) : q1 = q := by
  simp only [Queue_peek_tail] at h
  split_ifs at h <;> simp at h <;> exact h.2.symm

theorem size_eq (q : Queue) (s : Nat) (hs : (s : Int) ≤ INT_MAX) (h : q.size = s) :
    Queue_size q 0 = .returned ((s : Int), q) := by
  simp [Queue_size, h, toInt_small s hs, EDEADLK, EAGAIN, EINVAL]

theorem int_max_block (C : Nat) (h : (C : Int) ≤ INT_MAX) : PTR_SIZE * C ≤ SIZE_MAX := by
  have : (C : Int) < 2 ^ 31 := by
    simp only [INT_MAX] at h
    omega
  have h1 : C < 2 ^ 31 := by exact_mod_cast this
  simp only [SIZE_MAX, PTR_SIZE]
  omega

/-! ## The scan loop on a queue that has not wrapped -/

/-- FIFO order on a fresh queue whose block holds `C` slots
(`sizeof(void *) * C` does not wrap): `n ≤ C` adds each return 1 and the `n`
removes that follow return the handles in the order of the adds. -/
theorem fifo_when_block_fits (C : Nat) (hC : 1 ≤ C) (hblock : PTR_SIZE * C ≤ SIZE_MAX)
    (mem : Nat → Ptr) (es : List Ptr) (hn : es.length ≤ C) :
    ∃ q0 q1 q2, Queue_new C mem 0 = .returned q0 ∧
      runOps q0 (es.map Op.add) = .returned (List.replicate es.length (Res.int 1), q1) ∧
      runOps q1 (List.replicate es.length Op.remove) = .returned (es.map Res.ptr, q2) := by
  have ha := specRun_adds C es [] (by simpa using hn)
  simp only [List.nil_append] at ha
  have hmax : C ≤ SIZE_MAX := by
    simp only [PTR_SIZE] at hblock
    omega
  obtain ⟨q1, -, hr1, -, hinv1, hcap1, hsl1, hc1, -⟩ := runOps_refines (es.map Op.add) _
    (new_inv C hC hmax mem) (by simp [blockSlots_eq C hblock])
  simp only [contents_nil, ha] at hr1 hc1
  have hb1 : q1.capacity ≤ q1.slots := by
    rw [hcap1, hsl1]
    simp [blockSlots_eq C hblock]
  obtain ⟨q2, -, hr2, -, -, -, -, -, -⟩ :=
    runOps_refines (List.replicate es.length Op.remove) q1 hinv1 hb1
  rw [hc1, hcap1] at hr2
  simp only [specRun_removes] at hr2
  exact ⟨_, q1, q2, new_eq C hC mem, hr1, hr2⟩

/-- Refinement of the bounded list on a fresh queue whose block holds `C` slots
(`sizeof(void *) * C` does not wrap): every sequence of `Queue_add` /
`Queue_remove` calls returns, call by call, the results of the abstract list
bounded by `C`, and the live elements at the end are that list. -/
theorem refines_when_block_fits (C : Nat) (hC : 1 ≤ C) (hblock : PTR_SIZE * C ≤ SIZE_MAX)
    (mem : Nat → Ptr) (ops : List Op) :
    ∃ q0 q, Queue_new C mem 0 = .returned q0 ∧
      runOps q0 ops = .returned ((specRun C [] ops).1, q) ∧
      contents q = (specRun C [] ops).2 := by
  obtain ⟨q0, q, -, hnew, hr, -, -, -, hc, -⟩ := new_refines C hC hblock mem ops
  exact ⟨q0, q, hnew, hr, hc⟩

/-- The capacity-3 scenario of the specification: add A, B, E give Added, add D
gives Full, remove gives A, add D gives Added, the removes give B, E, D and a
last remove gives `NULL`. -/
theorem scenario_capacity_three (mem : Nat → Ptr) (A B E D : Ptr) :
    ∃ q0 q, Queue_new 3 mem 0 = .returned q0 ∧
      runOps q0 [Op.add A, Op.add B, Op.add E, Op.add D, Op.remove, Op.add D, Op.remove,
          Op.remove, Op.remove, Op.remove] =
        .returned ([Res.int 1, Res.int 1, Res.int 1, Res.int 0, Res.ptr A, Res.int 1,
          Res.ptr B, Res.ptr E, Res.ptr D, Res.ptr NULL], q) := by
  obtain ⟨q0, q, -, hnew, hr, -, -, -, -, -⟩ := new_refines 3 (by decide)
    (by norm_num [PTR_SIZE, SIZE_MAX]) mem
    [Op.add A, Op.add B, Op.add E, Op.add D, Op.remove, Op.add D, Op.remove,
      Op.remove, Op.remove, Op.remove]
  refine ⟨q0, q, hnew, ?_⟩
  rw [hr]
  simp [specRun, specStep]

/-- The capacity invariant along call sequences: after every call of a
sequence of `Queue_add` / `Queue_remove` / query calls on `Queue_new C` that
returns, the `capacity` field is `C`, `size ≤ capacity`, and a further
`Queue_remove` does not make `size` larger. -/
theorem size_le_capacity_along_calls (C : Nat) (hC : 1 ≤ C) (hmax : C ≤ SIZE_MAX)
    (mem : Nat → Ptr) (fuel : Nat) (calls : List Call) (rs : List Res) (q0 q : Queue)
    (hnew : Queue_new C mem 0 = .returned q0)
    (hrun : runCalls fuel q0 calls = .returned (rs, q)) :
    q.capacity = C ∧ q.size ≤ q.capacity ∧
      (∀ p q2, Queue_remove q 0 = .returned (p, q2) → q2.size ≤ q.size) := by
  rw [new_eq C hC mem] at hnew
  simp at hnew
  subst hnew
  obtain ⟨hinv, hcap⟩ := runCalls_preserves fuel calls _ (new_inv C hC hmax mem) rs q hrun
  exact ⟨hcap, hinv.2.2.2.1, fun p q2 h => (remove_preserves q hinv p q2 h).2.2⟩

/-! ## Settled claims -/

/-- C1 (the code departs from the claim). `Queue_new` of the capacity
`2 ^ 61 + 1` returns a queue whose block has a single slot, the product
`sizeof(void *) * maxSize` having wrapped to 8; the first `Queue_add` returns 1
and the second, with `n == 2 ≤ C` and the queue not full, writes outside the
block instead of returning 1. -/
theorem fifo_breaks_when_allocation_wraps :
    ∃ q0 q1, Queue_new (2 ^ 61 + 1) (fun _ => 0) 0 = .returned q0 ∧
      q0.capacity = 2 ^ 61 + 1 ∧ q0.slots = 1 ∧
      runOps q0 [Op.add 10] = .returned ([Res.int 1], q1) ∧
      q1.size = 1 ∧ q1.tail = 1 ∧ Queue_add q1 0 20 = .undefined ∧
      runOps q0 [Op.add 10, Op.add 20] = .undefined := by
  refine ⟨⟨fun _ => 0, 2 ^ 61 + 1, 0, 0, 0, 1⟩,
    ⟨Function.update (fun _ => 0) 0 10, 2 ^ 61 + 1, 0, 1, 1, 1⟩, ?_, rfl, rfl, ?_, rfl, rfl,
    ?_, ?_⟩
  · simp [Queue_new, Queue_empty, Run.bind, blockSlots, PTR_SIZE, SIZE_RANGE, EDEADLK, EAGAIN,
      EINVAL]
  · simp [runOps, step, Queue_add, Run.bind, SIZE_RANGE, EDEADLK, EINVAL]
  · simp [Queue_add, EDEADLK, EINVAL]
  · simp [runOps, step, Queue_add, Run.bind, SIZE_RANGE, EDEADLK, EINVAL]

/-- C2 (the code departs from the claim). On `Queue_new` of the capacity
`2 ^ 61 + 1`, whose block has a single slot, the calls add 10, remove, add 20
give 1 and 10 and then write outside the block, where the abstract list bounded
by the capacity gives 1, 10, 1. -/
theorem refinement_breaks_when_allocation_wraps :
    ∃ q0, Queue_new (2 ^ 61 + 1) (fun _ => 0) 0 = .returned q0 ∧ q0.slots = 1 ∧
      (∃ q1, runOps q0 [Op.add 10, Op.remove] = .returned ([Res.int 1, Res.ptr 10], q1) ∧
        q1.size = 0 ∧ q1.tail = 1) ∧
      runOps q0 [Op.add 10, Op.remove, Op.add 20] = .undefined ∧
      (specRun (2 ^ 61 + 1) [] [Op.add 10, Op.remove, Op.add 20]).1 =
        [Res.int 1, Res.ptr 10, Res.int 1] := by
  refine ⟨⟨fun _ => 0, 2 ^ 61 + 1, 0, 0, 0, 1⟩, ?_, rfl,
    ⟨⟨Function.update (fun _ => 0) 0 10, 2 ^ 61 + 1, 1, 1, 0, 1⟩, ?_, rfl, rfl⟩, ?_, ?_⟩
  · simp [Queue_new, Queue_empty, Run.bind, blockSlots, PTR_SIZE, SIZE_RANGE, EDEADLK, EAGAIN,
      EINVAL]
  · simp [runOps, step, Queue_add, Queue_remove, Run.bind, SIZE_RANGE, EDEADLK, EINVAL]
  · simp [runOps, step, Queue_add, Queue_remove, Run.bind, SIZE_RANGE, EDEADLK, EINVAL]
  · simp [specRun, specStep]

/-- C3. Add-when-full is a no-op: in every queue state with `size == capacity`,
`Queue_add` (the lock being acquired) returns 0 and leaves the whole state,
that is `size`, `head`, `tail`, `capacity` and every storage slot, unchanged. -/
theorem add_when_full_noop (q : Queue) (x : Ptr) (h : q.size = q.capacity) :
    ∃ q1, Queue_add q 0 x = .returned (0, q1) ∧ q1.size = q.size ∧ q1.head = q.head ∧
      q1.tail = q.tail ∧ q1.capacity = q.capacity ∧ ∀ i, q1.data i = q.data i :=
  ⟨q, add_full_eq q x h, rfl, rfl, rfl, rfl, fun _ => rfl⟩

/-- Witness for C3: a full queue of capacity 2 holding 10 and 20. -/
theorem add_when_full_noop_witness :
    ∃ q1, Queue_add ⟨fun i => 10 * (i + 1), 2, 0, 0, 2, 2⟩ 0 30 = .returned (0, q1) ∧
      q1.size = 2 ∧ q1.head = 0 ∧ q1.tail = 0 ∧ q1.capacity = 2 ∧
      ∀ i, q1.data i = 10 * (i + 1) :=
  add_when_full_noop ⟨fun i => 10 * (i + 1), 2, 0, 0, 2, 2⟩ 30 rfl

/-- C4. Remove-when-empty is a no-op: in every queue state with `size == 0`,
`Queue_remove` (the lock being acquired) returns `NULL` and leaves the whole
state, that is `size`, `head`, `tail`, `capacity` and every storage slot,
unchanged. -/
theorem remove_when_empty_noop (q : Queue) (h : q.size = 0) :
    ∃ q1, Queue_remove q 0 = .returned (NULL, q1) ∧ q1.size = q.size ∧ q1.head = q.head ∧
      q1.tail = q.tail ∧ q1.capacity = q.capacity ∧ ∀ i, q1.data i = q.data i :=
  ⟨q, remove_empty_eq q h, rfl, rfl, rfl, rfl, fun _ => rfl⟩

/-- Witness for C4: an emptied queue of capacity 2 with stale slots. -/
theorem remove_when_empty_noop_witness :
    ∃ q1, Queue_remove ⟨fun i => 10 * (i + 1), 2, 1, 1, 0, 2⟩ 0 = .returned (NULL, q1) ∧
      q1.size = 0 ∧ q1.head = 1 ∧ q1.tail = 1 ∧ q1.capacity = 2 ∧
      ∀ i, q1.data i = 10 * (i + 1) :=
  remove_when_empty_noop ⟨fun i => 10 * (i + 1), 2, 1, 1, 0, 2⟩ rfl

/-- C6. Full/empty correctness: in every queue state, the lock being acquired,
`Queue_full` returns 1 if `size == capacity` and 0 otherwise, `Queue_empty`
returns 1 if `size == 0` and 0 otherwise, and neither changes the state. -/
theorem full_empty_correct (q : Queue) :
    Queue_full q 0 = .returned (if q.size = q.capacity then 1 else 0, q) ∧
      Queue_empty q 0 = .returned (if q.size = 0 then 1 else 0, q) := by
  constructor
  · by_cases h : q.size = q.capacity <;> simp [Queue_full, h, EDEADLK, EAGAIN, EINVAL]
  · by_cases h : q.size = 0 <;> simp [Queue_empty, h, EDEADLK, EAGAIN, EINVAL]

/-- C5 (the code departs from the claim). On the queue reached from
`Queue_new` of the capacity `2 ^ 31` by add 7, the fields satisfy
`size == 1 ≤ capacity`, but `Queue_size` reports 1 and `Queue_cap` reports
`-2147483648`: the reported size exceeds the reported capacity. -/
theorem reported_size_exceeds_reported_cap :
    ∃ q0 rs q, Queue_new (2 ^ 31) (fun _ => 0) 0 = .returned q0 ∧
      runCalls 0 q0 [Call.add 7] = .returned (rs, q) ∧
      q.size = 1 ∧ q.capacity = 2 ^ 31 ∧
      Queue_size q 0 = .returned (1, q) ∧ Queue_cap q 0 = .returned (-2147483648, q) ∧
      ¬ ((1 : Int) ≤ -2147483648) := by
  refine ⟨⟨fun _ => 0, 2 ^ 31, 0, 0, 0, 2 ^ 31⟩, [Res.int 1],
    ⟨Function.update (fun _ => 0) 0 7, 2 ^ 31, 0, 1, 1, 2 ^ 31⟩, ?_, ?_, rfl, rfl, ?_, ?_,
    by decide⟩
  · simp [Queue_new, Queue_empty, Run.bind, blockSlots, PTR_SIZE, SIZE_RANGE, EDEADLK, EAGAIN,
      EINVAL]
  · simp [runCalls, call, Queue_add, Run.bind, SIZE_RANGE, EDEADLK, EINVAL]
  · simp [Queue_size, toInt, EDEADLK, EAGAIN, EINVAL]
  · simp [Queue_cap, toInt, EDEADLK, EAGAIN, EINVAL]

/-- C7 (the code departs from the claim). On the full queue reached from
`Queue_new 2` by add 10, add 20 (`head == tail == 0`, live elements 10, 20),
`Queue_find` for the stored handle 20 returns `NULL` although the first live
match is 20; on the wrapped queue reached from `Queue_new 3` by add 10, 20, 30,
remove, remove, add 40 (`head == 2 > tail == 1`, live elements 30, 40),
`Queue_find` for the stored handle 30 returns `NULL` as well. -/
theorem find_misses_live_element :
    (∃ q0 rs q, Queue_new 2 (fun _ => 0) 0 = .returned q0 ∧
      runOps q0 [Op.add 10, Op.add 20] = .returned (rs, q) ∧
      q.head = 0 ∧ q.tail = 0 ∧ q.size = 2 ∧ contents q = [10, 20] ∧
      specFind sameHandle 20 (contents q) = 20 ∧
      ∀ fuel, Queue_find (fuel + 2) q 0 sameHandle 20 = .returned (NULL, q)) ∧
    (∃ q0 rs q, Queue_new 3 (fun _ => 0) 0 = .returned q0 ∧
      runOps q0 [Op.add 10, Op.add 20, Op.add 30, Op.remove, Op.remove, Op.add 40] =
        .returned (rs, q) ∧
      q.head = 2 ∧ q.tail = 1 ∧ q.size = 2 ∧ contents q = [30, 40] ∧
      specFind sameHandle 30 (contents q) = 30 ∧
      ∀ fuel, Queue_find (fuel + 1) q 0 sameHandle 30 = .returned (NULL, q)) := by
  constructor
  · refine ⟨⟨fun _ => 0, 2, 0, 0, 0, 2⟩, [Res.int 1, Res.int 1],
      ⟨Function.update (Function.update (fun _ => 0) 0 10) 1 20, 2, 0, 0, 2, 2⟩,
      ?_, ?_, rfl, rfl, rfl, ?_, ?_, ?_⟩
    · simp [Queue_new, Queue_empty, Run.bind, blockSlots, PTR_SIZE, SIZE_RANGE, EDEADLK, EAGAIN,
      EINVAL]
    · simp [runOps, step, Queue_add, Run.bind, SIZE_RANGE, EDEADLK, EINVAL]
    · simp [contents, List.range_succ, Function.update]
    · simp [contents, List.range_succ, Function.update, specFind, sameHandle]
    · intro fuel
      simp [Queue_find, findLoop, sameHandle, Function.update, SIZE_RANGE, NULL, EDEADLK,
        EAGAIN, EINVAL]
  · refine ⟨⟨fun _ => 0, 3, 0, 0, 0, 3⟩,
      [Res.int 1, Res.int 1, Res.int 1, Res.ptr 10, Res.ptr 20, Res.int 1],
      ⟨Function.update
        (Function.update (Function.update (Function.update (fun _ => 0) 0 10) 1 20) 2 30)
        0 40, 3, 2, 1, 2, 3⟩,
      ?_, ?_, rfl, rfl, rfl, ?_, ?_, ?_⟩
    · simp [Queue_new, Queue_empty, Run.bind, blockSlots, PTR_SIZE, SIZE_RANGE, EDEADLK, EAGAIN,
      EINVAL]
    · simp [runOps, step, Queue_add, Queue_remove, Run.bind, SIZE_RANGE, Function.update,
        EDEADLK, EINVAL]
    · simp [contents, List.range_succ, Function.update]
    · simp [contents, List.range_succ, Function.update, specFind, sameHandle]
    · intro fuel
      simp [Queue_find, findLoop, NULL, EDEADLK, EAGAIN, EINVAL]

/-- C8 (the code departs from the claim). On the queue reached from
`Queue_new 2` by add 10, add 20, `tail` has wrapped to 0 while `size == 2`; the
newest element is 20, at index `(tail - 1 + capacity) mod capacity == 1`, but
`Queue_peek_tail` fails its assertion `tail >= 1` instead of returning it. -/
theorem peek_tail_aborts_when_tail_wrapped :
    ∃ q0 rs q, Queue_new 2 (fun _ => 0) 0 = .returned q0 ∧
      runOps q0 [Op.add 10, Op.add 20] = .returned (rs, q) ∧
      q.size = 2 ∧ q.tail = 0 ∧ contents q = [10, 20] ∧
      q.data ((q.tail + q.capacity - 1) % q.capacity) = 20 ∧
      Queue_peek_tail q 0 = .assertFailed := by
  refine ⟨⟨fun _ => 0, 2, 0, 0, 0, 2⟩, [Res.int 1, Res.int 1],
    ⟨Function.update (Function.update (fun _ => 0) 0 10) 1 20, 2, 0, 0, 2, 2⟩,
    ?_, ?_, rfl, rfl, ?_, ?_, ?_⟩
  · simp [Queue_new, Queue_empty, Run.bind, blockSlots, PTR_SIZE, SIZE_RANGE, EDEADLK, EAGAIN,
      EINVAL]
  · simp [runOps, step, Queue_add, Run.bind, SIZE_RANGE, EDEADLK, EINVAL]
  · simp [contents, List.range_succ, Function.update]
  · simp [Function.update]
  · simp [Queue_peek_tail, EDEADLK, EAGAIN, EINVAL]

/-- C10 (the code departs from the claim). On the queue reached from
`Queue_new 1` by add 10, the scan loop of `Queue_find` with a comparator that
matches nothing never ends: whatever the budget of loop-condition evaluations,
it is used up before the call returns. -/
theorem find_never_returns :
    ∃ q0 rs q, Queue_new 1 (fun _ => 0) 0 = .returned q0 ∧
      runOps q0 [Op.add 10] = .returned (rs, q) ∧
      q.head = 0 ∧ q.tail = 0 ∧ q.size = 1 ∧ contents q = [10] ∧
      ∀ fuel, Queue_find fuel q 0 neverMatch 0 = .outOfFuel := by
  refine ⟨⟨fun _ => 0, 1, 0, 0, 0, 1⟩, [Res.int 1],
    ⟨Function.update (fun _ => 0) 0 10, 1, 0, 0, 1, 1⟩, ?_, ?_, rfl, rfl, rfl, ?_, ?_⟩
  · simp [Queue_new, Queue_empty, Run.bind, blockSlots, PTR_SIZE, SIZE_RANGE, EDEADLK, EAGAIN,
      EINVAL]
  · simp [runOps, step, Queue_add, Run.bind, SIZE_RANGE, EDEADLK, EINVAL]
  · simp [contents, List.range_succ, Function.update]
  · intro fuel
    have hloop : ∀ n, findLoop ⟨Function.update (fun _ => 0) 0 10, 1, 0, 0, 1, 1⟩
        neverMatch 0 n 0 = .outOfFuel := by
      intro n
      induction n with
      | zero => rfl
      | succ n ih =>
        simp only [findLoop]
        simpa [neverMatch, SIZE_RANGE] using ih
    simp [Queue_find, hloop, EDEADLK, EAGAIN, EINVAL]

/-- C9. peek_head returns the oldest element: for a capacity `C ≥ 1` (a
`size_t`), in every state `q` reached from `Queue_new C` by a sequence of
`Queue_add` / `Queue_remove` calls, the results of which are those of the
abstract list: when `size == 0`, `Queue_peek_head` returns `NULL`; otherwise it
returns the handle stored at index `head`, the next `Queue_remove` returns that
same handle, and it is the front of the abstract list, the oldest added element
not yet removed.  The state is unchanged by `Queue_peek_head`. -/
theorem peek_head_oldest (C : Nat) (hC : 1 ≤ C) (hmax : C ≤ SIZE_MAX) (mem : Nat → Ptr)
    (ops : List Op) (rs : List Res) (q0 q : Queue)
    (hnew : Queue_new C mem 0 = .returned q0) (hrun : runOps q0 ops = .returned (rs, q)) :
    rs = (specRun C [] ops).1 ∧
      (q.size = 0 → Queue_peek_head q 0 = .returned (NULL, q)) ∧
      (q.size ≠ 0 →
        Queue_peek_head q 0 = .returned (q.data q.head, q) ∧
        (∃ q1, Queue_remove q 0 = .returned (q.data q.head, q1)) ∧
        (specRun C [] ops).2.head? = some (q.data q.head)) := by
  obtain ⟨hrs, hinv, hcap, hc⟩ := new_reached C hC hmax mem ops rs q0 q hnew hrun
  refine ⟨hrs, ?_, ?_⟩
  · intro h
    simp [Queue_peek_head, h]
  · intro h
    have hpos : 0 < q.size := Nat.pos_of_ne_zero h
    have hnh : ¬ q.slots ≤ q.head := by
      have := inv_head_in_block q hinv hpos
      omega
    refine ⟨?_, ⟨_, remove_eq q hinv hpos⟩, ?_⟩
    · simp [Queue_peek_head, h, hnh, EDEADLK, EAGAIN, EINVAL]
    · rw [← hc, remove_contents q hinv hpos]
      rfl

/-- Witness for C9: capacity 2 and the calls add 10, add 20, remove, which leave
20 at slot 1 as the only live element. -/
theorem peek_head_oldest_witness :
    [Res.int 1, Res.int 1, Res.ptr 10] = (specRun 2 [] [Op.add 10, Op.add 20, Op.remove]).1 ∧
      ((⟨Function.update (Function.update (fun _ => 0) 0 10) 1 20, 2, 1, 0, 1, 2⟩ : Queue).size
          = 0 →
        Queue_peek_head
            ⟨Function.update (Function.update (fun _ => 0) 0 10) 1 20, 2, 1, 0, 1, 2⟩ 0 =
          .returned (NULL,
            ⟨Function.update (Function.update (fun _ => 0) 0 10) 1 20, 2, 1, 0, 1, 2⟩)) ∧
      ((⟨Function.update (Function.update (fun _ => 0) 0 10) 1 20, 2, 1, 0, 1, 2⟩ : Queue).size
          ≠ 0 →
        Queue_peek_head
            ⟨Function.update (Function.update (fun _ => 0) 0 10) 1 20, 2, 1, 0, 1, 2⟩ 0 =
          .returned
            ((⟨Function.update (Function.update (fun _ => 0) 0 10) 1 20, 2, 1, 0, 1, 2⟩ :
                Queue).data
              (⟨Function.update (Function.update (fun _ => 0) 0 10) 1 20, 2, 1, 0, 1, 2⟩ :
                Queue).head,
            ⟨Function.update (Function.update (fun _ => 0) 0 10) 1 20, 2, 1, 0, 1, 2⟩) ∧
        (∃ q1,
          Queue_remove
              ⟨Function.update (Function.update (fun _ => 0) 0 10) 1 20, 2, 1, 0, 1, 2⟩ 0 =
            .returned
              ((⟨Function.update (Function.update (fun _ => 0) 0 10) 1 20, 2, 1, 0, 1, 2⟩ :
                  Queue).data
                (⟨Function.update (Function.update (fun _ => 0) 0 10) 1 20, 2, 1, 0, 1, 2⟩ :
                  Queue).head, q1)) ∧
        (specRun 2 [] [Op.add 10, Op.add 20, Op.remove]).2.head? =
          some
            ((⟨Function.update (Function.update (fun _ => 0) 0 10) 1 20, 2, 1, 0, 1, 2⟩ :
                Queue).data
              (⟨Function.update (Function.update (fun _ => 0) 0 10) 1 20, 2, 1, 0, 1, 2⟩ :
                Queue).head)) :=
  peek_head_oldest 2 (by decide) (by norm_num [SIZE_MAX]) (fun _ => 0)
    [Op.add 10, Op.add 20, Op.remove] [Res.int 1, Res.int 1, Res.ptr 10]
    ⟨fun _ => 0, 2, 0, 0, 0, 2⟩
    ⟨Function.update (Function.update (fun _ => 0) 0 10) 1 20, 2, 1, 0, 1, 2⟩
    (by
      simp [Queue_new, Queue_empty, Run.bind, blockSlots, PTR_SIZE, SIZE_RANGE, EDEADLK,
        EAGAIN, EINVAL])
    (by
      simp [runOps, step, Queue_add, Queue_remove, Run.bind, SIZE_RANGE, Function.update,
        EDEADLK, EINVAL])

/-- C11. Queries are read-only: in every queue state and for every lock result,
whenever `Queue_peek_head`, `Queue_peek_tail` or `Queue_find` returns, the state
after the call is the state before it (`size`, `head`, `tail`, `capacity` and
every storage slot), and the same call made again returns the same result. -/
theorem queries_read_only (q : Queue) (ret : Int) (fuel : Nat) (m : Queue_matchFn) (a : Ptr) :
    (∀ p q1, Queue_peek_head q ret = .returned (p, q1) →
      (q1.size = q.size ∧ q1.head = q.head ∧ q1.tail = q.tail ∧ q1.capacity = q.capacity ∧
        ∀ i, q1.data i = q.data i) ∧
      Queue_peek_head q1 ret = .returned (p, q1)) ∧
    (∀ p q1, Queue_peek_tail q ret = .returned (p, q1) →
      (q1.size = q.size ∧ q1.head = q.head ∧ q1.tail = q.tail ∧ q1.capacity = q.capacity ∧
        ∀ i, q1.data i = q.data i) ∧
      Queue_peek_tail q1 ret = .returned (p, q1)) ∧
    (∀ p q1, Queue_find fuel q ret m a = .returned (p, q1) →
      (q1.size = q.size ∧ q1.head = q.head ∧ q1.tail = q.tail ∧ q1.capacity = q.capacity ∧
        ∀ i, q1.data i = q.data i) ∧
      Queue_find fuel q1 ret m a = .returned (p, q1)) := by
  refine ⟨?_, ?_, ?_⟩
  · intro p q1 h
    have e := peek_head_state_any q ret p q1 h
    subst e
    exact ⟨⟨rfl, rfl, rfl, rfl, fun _ => rfl⟩, h⟩
  · intro p q1 h
    have e := peek_tail_state_any q ret p q1 h
    subst e
    exact ⟨⟨rfl, rfl, rfl, rfl, fun _ => rfl⟩, h⟩
  · intro p q1 h
    have e := find_state_any fuel q ret m a p q1 h
    subst e
    exact ⟨⟨rfl, rfl, rfl, rfl, fun _ => rfl⟩, h⟩

/-- Witness for C11: the queue of capacity 4 holding 10, 20 at slots 0, 1; the
three queries return 10, 20 and 20 and return them again when repeated. -/
theorem queries_read_only_witness :
    Queue_peek_head ⟨fun i => 10 * (i + 1), 4, 0, 2, 2, 4⟩ 0 =
        .returned (10, ⟨fun i => 10 * (i + 1), 4, 0, 2, 2, 4⟩) ∧
      Queue_peek_tail ⟨fun i => 10 * (i + 1), 4, 0, 2, 2, 4⟩ 0 =
        .returned (20, ⟨fun i => 10 * (i + 1), 4, 0, 2, 2, 4⟩) ∧
      Queue_find 5 ⟨fun i => 10 * (i + 1), 4, 0, 2, 2, 4⟩ 0 sameHandle 20 =
        .returned (20, ⟨fun i => 10 * (i + 1), 4, 0, 2, 2, 4⟩) :=
  ⟨((queries_read_only ⟨fun i => 10 * (i + 1), 4, 0, 2, 2, 4⟩ 0 5 sameHandle 20).1 10
      ⟨fun i => 10 * (i + 1), 4, 0, 2, 2, 4⟩
      (by simp [Queue_peek_head, EDEADLK, EAGAIN, EINVAL])).2,
    ((queries_read_only ⟨fun i => 10 * (i + 1), 4, 0, 2, 2, 4⟩ 0 5 sameHandle 20).2.1 20
      ⟨fun i => 10 * (i + 1), 4, 0, 2, 2, 4⟩
      (by simp [Queue_peek_tail, EDEADLK, EAGAIN, EINVAL])).2,
    ((queries_read_only ⟨fun i => 10 * (i + 1), 4, 0, 2, 2, 4⟩ 0 5 sameHandle 20).2.2 20
      ⟨fun i => 10 * (i + 1), 4, 0, 2, 2, 4⟩
      (by simp [Queue_find, findLoop, sameHandle, SIZE_RANGE, EDEADLK, EAGAIN, EINVAL])).2⟩

/-- C12 (amended). Lock-error results of the mutators, the lock result being an
input: on `EDEADLK`, `Queue_add` returns -1 and leaves the state, while with any
other lock result every value it returns is 0 or 1, hence different from -1; on
`EDEADLK`, `Queue_remove` returns `NULL` and leaves the state, and `NULL` is
also what it returns, under every lock result, for a queue with `size == 0`. -/
theorem lock_error_results (q : Queue) (x : Ptr) (ret : Int) (hret : ret ≠ EDEADLK) :
    Queue_add q EDEADLK x = .returned (-1, q) ∧
      (∀ r q1, Queue_add q ret x = .returned (r, q1) → (r = 0 ∨ r = 1) ∧ r ≠ -1) ∧
      Queue_remove q EDEADLK = .returned (NULL, q) ∧
      (q.size = 0 → Queue_remove q ret = .returned (NULL, q)) := by
  refine ⟨by simp [Queue_add], ?_, by simp [Queue_remove], ?_⟩
  · intro r q1 h
    simp only [Queue_add, if_neg hret] at h
    split_ifs at h <;> simp at h
    · exact ⟨Or.inl h.1.symm, by omega⟩
    · exact ⟨Or.inr h.1.symm, by omega⟩
  · intro h
    simp [Queue_remove, h]

/-- Witness for C12: an empty queue of capacity 2, the lock being acquired. -/
theorem lock_error_results_witness :
    Queue_add ⟨fun _ => 0, 2, 0, 0, 0, 2⟩ EDEADLK 10 = .returned (-1, ⟨fun _ => 0, 2, 0, 0, 0, 2⟩) ∧
      (∀ r q1, Queue_add ⟨fun _ => 0, 2, 0, 0, 0, 2⟩ 0 10 = .returned (r, q1) →
        (r = 0 ∨ r = 1) ∧ r ≠ -1) ∧
      Queue_remove ⟨fun _ => 0, 2, 0, 0, 0, 2⟩ EDEADLK =
        .returned (NULL, ⟨fun _ => 0, 2, 0, 0, 0, 2⟩) ∧
      ((⟨fun _ => 0, 2, 0, 0, 0, 2⟩ : Queue).size = 0 →
        Queue_remove ⟨fun _ => 0, 2, 0, 0, 0, 2⟩ 0 =
          .returned (NULL, ⟨fun _ => 0, 2, 0, 0, 0, 2⟩)) :=
  lock_error_results ⟨fun _ => 0, 2, 0, 0, 0, 2⟩ 10 0 (by simp [EDEADLK])

/-- Counterexample to C12 as stated: on a queue holding one element
`Queue_remove` under `EDEADLK` returns `NULL`, the very value it returns for an
empty queue when the lock is acquired. -/
theorem remove_lock_error_equals_empty :
    Queue_remove ⟨fun _ => 10, 2, 0, 1, 1, 2⟩ EDEADLK =
        .returned (NULL, ⟨fun _ => 10, 2, 0, 1, 1, 2⟩) ∧
      Queue_remove ⟨fun _ => 10, 2, 0, 0, 0, 2⟩ 0 =
        .returned (NULL, ⟨fun _ => 10, 2, 0, 0, 0, 2⟩) := by
  constructor
  · simp [Queue_remove]
  · simp [Queue_remove]

/-- C13. Construction: `Queue_new 0` fails its assertion on `maxSize`, whatever
the block content and lock result, and produces no queue; for `C ≥ 1`,
`Queue_new C` returns a queue with `capacity == C` and `head == tail == size == 0`
on which `Queue_empty` returns 1. -/
theorem construction (C : Nat) (hC : 1 ≤ C) (mem : Nat → Ptr) :
    (∀ ret, Queue_new 0 mem ret = .assertFailed) ∧
      ∃ q, Queue_new C mem 0 = .returned q ∧ q.capacity = C ∧ q.head = 0 ∧ q.tail = 0 ∧
        q.size = 0 ∧ Queue_empty q 0 = .returned (1, q) := by
  refine ⟨fun ret => by simp [Queue_new], _, new_eq C hC mem, rfl, rfl, rfl, rfl, ?_⟩
  simp [Queue_empty, EDEADLK, EAGAIN, EINVAL]

/-- Witness for C13: capacity 200, as in the test driver. -/
theorem construction_witness :
    (∀ ret, Queue_new 0 (fun _ => 0) ret = .assertFailed) ∧
      ∃ q, Queue_new 200 (fun _ => 0) 0 = .returned q ∧ q.capacity = 200 ∧ q.head = 0 ∧
        q.tail = 0 ∧ q.size = 0 ∧ Queue_empty q 0 = .returned (1, q) :=
  construction 200 (by decide) (fun _ => 0)

/-- C14. Size counts live elements: for a capacity `C ≥ 1` representable as
`int` and every finite sequence of `Queue_add` / `Queue_remove` calls on
`Queue_new C`, `Queue_size` then returns the number of adds that returned 1
minus the number of removes performed on a non-empty queue.  In particular,
after the `i`-th of `C` consecutive adds on a new queue `Queue_size` returns
`i`, after the `C`-th `Queue_full` returns 1, after `j ≤ C` removes that follow
`Queue_size` returns `C - j`, and `Queue_empty` returns 1 after the `C`-th and 0
before. -/
theorem size_counts_live (C : Nat) (hC : 1 ≤ C) (hint : (C : Int) ≤ INT_MAX)
    (mem : Nat → Ptr) :
    (∀ ops : List Op, ∃ q0 rs q k, Queue_new C mem 0 = .returned q0 ∧
      runOps q0 ops = .returned (rs, q) ∧ removesOnNonEmpty q0 ops = .returned k ∧
      Queue_size q 0 = .returned (((rs.count (Res.int 1) : Nat) : Int) - ((k : Nat) : Int), q)) ∧
    (∀ (es : List Ptr) (i : Nat), es.length = C → i ≤ C →
      ∃ q0 rs q, Queue_new C mem 0 = .returned q0 ∧
        runOps q0 ((es.take i).map Op.add) = .returned (rs, q) ∧
        Queue_size q 0 = .returned ((i : Int), q) ∧
        (i = C → Queue_full q 0 = .returned (1, q))) ∧
    (∀ (es : List Ptr) (j : Nat), es.length = C → j ≤ C →
      ∃ q0 rs q, Queue_new C mem 0 = .returned q0 ∧
        runOps q0 (es.map Op.add ++ List.replicate j Op.remove) = .returned (rs, q) ∧
        Queue_size q 0 = .returned (((C - j : Nat) : Int), q) ∧
        (j = C → Queue_empty q 0 = .returned (1, q)) ∧
        (j < C → Queue_empty q 0 = .returned (0, q))) := by
  have hblock : PTR_SIZE * C ≤ SIZE_MAX := int_max_block C hint
  refine ⟨?_, ?_, ?_⟩
  · intro ops
    obtain ⟨q0, q, k, hnew, hr, hk, hinv, hcap, -, hc⟩ := new_refines C hC hblock mem ops
    refine ⟨q0, _, q, k, hnew, hr, hk, ?_⟩
    have hle : (q.size : Int) ≤ INT_MAX := by
      have h1 : q.size ≤ q.capacity := hinv.2.2.2.1
      have h2 : q.capacity = C := hcap
      have : (q.size : Int) ≤ (C : Int) := by
        rw [← h2]
        exact_mod_cast h1
      omega
    have e : ((((specRun C [] ops).1).count (Res.int 1) : Nat) : Int) - ((k : Nat) : Int) =
        (q.size : Int) := by
      omega
    rw [e]
    exact size_eq q q.size hle rfl
  · intro es i hlen hi
    obtain ⟨q0, q, -, hnew, hr, -, hinv, hcap, hc, -⟩ :=
      new_refines C hC hblock mem ((es.take i).map Op.add)
    have hl : (es.take i).length = i := by simp [hlen, hi]
    have ha := specRun_adds C (es.take i) [] (by simp [hlen])
    rw [ha] at hc
    have hsz : q.size = i := by
      rw [← contents_length, hc]
      simp [hlen, hi]
    refine ⟨q0, _, q, hnew, hr, size_eq q i (by omega) hsz, ?_⟩
    intro hiC
    have : q.size = q.capacity := by rw [hsz, hcap, hiC]
    simp [Queue_full, this, EDEADLK, EAGAIN, EINVAL]
  · intro es j hlen hj
    obtain ⟨q0, q, -, hnew, hr, -, hinv, hcap, hc, -⟩ := new_refines C hC hblock mem
      (es.map Op.add ++ List.replicate j Op.remove)
    have ha := specRun_adds C es [] (by simp [hlen])
    simp only [List.nil_append] at ha
    rw [specRun_append, ha, specRun_removes_take C j es (by omega)] at hc
    simp only at hc
    have hsz : q.size = C - j := by
      rw [← contents_length, hc]
      simp [hlen]
    have hcj : ((C - j : Nat) : Int) ≤ INT_MAX := by
      have : ((C - j : Nat) : Int) ≤ (C : Int) := by
        exact_mod_cast Nat.sub_le C j
      omega
    refine ⟨q0, _, q, hnew, hr, size_eq q (C - j) hcj hsz, ?_, ?_⟩
    · intro hjC
      have : q.size = 0 := by omega
      simp [Queue_empty, this, EDEADLK, EAGAIN, EINVAL]
    · intro hjC
      have : q.size ≠ 0 := by omega
      simp [Queue_empty, this, EDEADLK, EAGAIN, EINVAL]

/-- Witness for C14: capacity 200, as in the test driver. -/
theorem size_counts_live_witness :
    (∀ ops : List Op, ∃ q0 rs q k, Queue_new 200 (fun _ => 0) 0 = .returned q0 ∧
      runOps q0 ops = .returned (rs, q) ∧ removesOnNonEmpty q0 ops = .returned k ∧
      Queue_size q 0 = .returned (((rs.count (Res.int 1) : Nat) : Int) - ((k : Nat) : Int), q)) ∧
    (∀ (es : List Ptr) (i : Nat), es.length = 200 → i ≤ 200 →
      ∃ q0 rs q, Queue_new 200 (fun _ => 0) 0 = .returned q0 ∧
        runOps q0 ((es.take i).map Op.add) = .returned (rs, q) ∧
        Queue_size q 0 = .returned ((i : Int), q) ∧
        (i = 200 → Queue_full q 0 = .returned (1, q))) ∧
    (∀ (es : List Ptr) (j : Nat), es.length = 200 → j ≤ 200 →
      ∃ q0 rs q, Queue_new 200 (fun _ => 0) 0 = .returned q0 ∧
        runOps q0 (es.map Op.add ++ List.replicate j Op.remove) = .returned (rs, q) ∧
        Queue_size q 0 = .returned (((200 - j : Nat) : Int), q) ∧
        (j = 200 → Queue_empty q 0 = .returned (1, q)) ∧
        (j < 200 → Queue_empty q 0 = .returned (0, q))) :=
  size_counts_live 200 (by decide) (by norm_num [INT_MAX]) (fun _ => 0)

/-- C17. Remove postcondition: in every queue state (fields being `size_t`
values, the slot at index `head` lying in the allocated block, as it does in
every state the code reaches with `size > 0`) with `size > 0` and
`head < capacity`, `Queue_remove` returns the handle
stored at the old `head`, the new `head` is `(head + 1) mod capacity`, `size` is
one less, and `tail`, `capacity` and every storage slot, the vacated one
included, are unchanged. -/
theorem remove_postcondition (q : Queue) (hcap : q.capacity ≤ SIZE_MAX)
    (hblock : q.head < q.slots) (hsz : q.size ≤ SIZE_MAX) (hs : 0 < q.size)
    (hh : q.head < q.capacity) :
    ∃ q1, Queue_remove q 0 = .returned (q.data q.head, q1) ∧
      q1.head = (q.head + 1) % q.capacity ∧ q1.size + 1 = q.size ∧
      q1.tail = q.tail ∧ q1.capacity = q.capacity ∧ (∀ i, q1.data i = q.data i) ∧
      q1.data q.head = q.data q.head := by
  have hR := size_max_succ
  have h1 : (q.head + 1) % SIZE_RANGE = q.head + 1 := Nat.mod_eq_of_lt (by omega)
  have h2 : (q.size + SIZE_RANGE - 1) % SIZE_RANGE = q.size - 1 := by
    have e : q.size + SIZE_RANGE - 1 = (q.size - 1) + SIZE_RANGE := by omega
    rw [e, Nat.add_mod_right]
    exact Nat.mod_eq_of_lt (by omega)
  have hne : q.size ≠ 0 := by omega
  have hnh : ¬ q.slots ≤ q.head := by omega
  have hc0 : q.capacity ≠ 0 := by omega
  refine ⟨{ q with
      head := (q.head + 1) % q.capacity
      size := q.size - 1 }, ?_, rfl, ?_, rfl, rfl, fun _ => rfl, rfl⟩
  · simp [Queue_remove, hne, hnh, hc0, h1, h2, EDEADLK, EINVAL]
  · show q.size - 1 + 1 = q.size
    omega

/-- Witness for C17: the queue of capacity 3 holding 10 at slot 2. -/
theorem remove_postcondition_witness :
    ∃ q1, Queue_remove ⟨fun _ => 10, 3, 2, 0, 1, 3⟩ 0 =
        .returned ((⟨fun _ => 10, 3, 2, 0, 1, 3⟩ : Queue).data
          (⟨fun _ => 10, 3, 2, 0, 1, 3⟩ : Queue).head, q1) ∧
      q1.head = ((⟨fun _ => 10, 3, 2, 0, 1, 3⟩ : Queue).head + 1) %
        (⟨fun _ => 10, 3, 2, 0, 1, 3⟩ : Queue).capacity ∧
      q1.size + 1 = (⟨fun _ => 10, 3, 2, 0, 1, 3⟩ : Queue).size ∧
      q1.tail = (⟨fun _ => 10, 3, 2, 0, 1, 3⟩ : Queue).tail ∧
      q1.capacity = (⟨fun _ => 10, 3, 2, 0, 1, 3⟩ : Queue).capacity ∧
      (∀ i, q1.data i = (⟨fun _ => 10, 3, 2, 0, 1, 3⟩ : Queue).data i) ∧
      q1.data (⟨fun _ => 10, 3, 2, 0, 1, 3⟩ : Queue).head =
        (⟨fun _ => 10, 3, 2, 0, 1, 3⟩ : Queue).data (⟨fun _ => 10, 3, 2, 0, 1, 3⟩ : Queue).head :=
  remove_postcondition ⟨fun _ => 10, 3, 2, 0, 1, 3⟩ (by norm_num [SIZE_MAX]) (by decide)
    (by norm_num [SIZE_MAX]) (by decide) (by decide)

/-- C18. Index invariant: for a capacity `C ≥ 1` (a `size_t`), every state
reached from `Queue_new C` by a sequence of `Queue_add` / `Queue_remove` calls
has `capacity == C`, `head < capacity`, `tail < capacity` and
`tail == (head + size) mod capacity`, so that `head == tail` exactly when the
queue is empty or full. -/
theorem index_invariant (C : Nat) (hC : 1 ≤ C) (hmax : C ≤ SIZE_MAX) (mem : Nat → Ptr)
    (ops : List Op) (rs : List Res) (q0 q : Queue)
    (hnew : Queue_new C mem 0 = .returned q0) (hrun : runOps q0 ops = .returned (rs, q)) :
    q.capacity = C ∧ q.head < q.capacity ∧ q.tail < q.capacity ∧
      q.tail = (q.head + q.size) % q.capacity ∧
      (q.head = q.tail ↔ q.size = 0 ∨ q.size = q.capacity) := by
  obtain ⟨-, hinv, hcap, -⟩ := new_reached C hC hmax mem ops rs q0 q hnew hrun
  have htl := inv_tail_lt q hinv
  obtain ⟨hpos, -, hhead, hsize, htail, -⟩ := hinv
  refine ⟨hcap, hhead, htl, htail, ?_⟩
  constructor
  · intro e
    by_cases hfull : q.size = q.capacity
    · exact Or.inr hfull
    · left
      have hlt : q.size < q.capacity := by omega
      have e1 : (q.head + 0) % q.capacity = (q.head + q.size) % q.capacity := by
        rw [Nat.add_zero, Nat.mod_eq_of_lt hhead, ← htail]
        exact e
      exact (mod_add_inj q.capacity q.head 0 q.size hpos hlt e1).symm
  · intro h
    rcases h with h | h
    · rw [htail, h, Nat.add_zero, Nat.mod_eq_of_lt hhead]
    · rw [htail, h, Nat.add_mod_right, Nat.mod_eq_of_lt hhead]

/-- Witness for C18: capacity 2 and the calls add 10, add 20, remove, add 30,
which leave the queue full with `head == tail == 1`. -/
theorem index_invariant_witness :
    (⟨Function.update (Function.update (Function.update (fun _ => 0) 0 10) 1 20) 0 30,
        2, 1, 1, 2, 2⟩ : Queue).capacity = 2 ∧
      (⟨Function.update (Function.update (Function.update (fun _ => 0) 0 10) 1 20) 0 30,
        2, 1, 1, 2, 2⟩ : Queue).head <
        (⟨Function.update (Function.update (Function.update (fun _ => 0) 0 10) 1 20) 0 30,
          2, 1, 1, 2, 2⟩ : Queue).capacity ∧
      (⟨Function.update (Function.update (Function.update (fun _ => 0) 0 10) 1 20) 0 30,
        2, 1, 1, 2, 2⟩ : Queue).tail <
        (⟨Function.update (Function.update (Function.update (fun _ => 0) 0 10) 1 20) 0 30,
          2, 1, 1, 2, 2⟩ : Queue).capacity ∧
      (⟨Function.update (Function.update (Function.update (fun _ => 0) 0 10) 1 20) 0 30,
        2, 1, 1, 2, 2⟩ : Queue).tail =
        ((⟨Function.update (Function.update (Function.update (fun _ => 0) 0 10) 1 20) 0 30,
          2, 1, 1, 2, 2⟩ : Queue).head +
          (⟨Function.update (Function.update (Function.update (fun _ => 0) 0 10) 1 20) 0 30,
            2, 1, 1, 2, 2⟩ : Queue).size) %
          (⟨Function.update (Function.update (Function.update (fun _ => 0) 0 10) 1 20) 0 30,
            2, 1, 1, 2, 2⟩ : Queue).capacity ∧
      ((⟨Function.update (Function.update (Function.update (fun _ => 0) 0 10) 1 20) 0 30,
        2, 1, 1, 2, 2⟩ : Queue).head =
        (⟨Function.update (Function.update (Function.update (fun _ => 0) 0 10) 1 20) 0 30,
          2, 1, 1, 2, 2⟩ : Queue).tail ↔
        (⟨Function.update (Function.update (Function.update (fun _ => 0) 0 10) 1 20) 0 30,
          2, 1, 1, 2, 2⟩ : Queue).size = 0 ∨
        (⟨Function.update (Function.update (Function.update (fun _ => 0) 0 10) 1 20) 0 30,
          2, 1, 1, 2, 2⟩ : Queue).size =
          (⟨Function.update (Function.update (Function.update (fun _ => 0) 0 10) 1 20) 0 30,
            2, 1, 1, 2, 2⟩ : Queue).capacity) :=
  index_invariant 2 (by decide) (by norm_num [SIZE_MAX]) (fun _ => 0)
    [Op.add 10, Op.add 20, Op.remove, Op.add 30]
    [Res.int 1, Res.int 1, Res.ptr 10, Res.int 1]
    ⟨fun _ => 0, 2, 0, 0, 0, 2⟩
    ⟨Function.update (Function.update (Function.update (fun _ => 0) 0 10) 1 20) 0 30,
      2, 1, 1, 2, 2⟩
    (by
      simp [Queue_new, Queue_empty, Run.bind, blockSlots, PTR_SIZE, SIZE_RANGE, EDEADLK,
        EAGAIN, EINVAL])
    (by
      simp [runOps, step, Queue_add, Queue_remove, Run.bind, SIZE_RANGE, Function.update,
        EDEADLK, EINVAL])

/-- C19 (the code departs from the claim). On the queue reached from
`Queue_new 3`, whose fresh block holds 99 at slot 1, by add 10 (`head == 0`,
`tail == 1`, `size == 1`, live range the index 0 alone), `Queue_find` with a
comparator that matches nothing reads the slots 0 and 1, and `Queue_find` for
the handle 99 returns 99 out of slot 1: the never-written slot at index `tail`
is inspected and returned. -/
theorem find_reads_slot_at_tail :
    ∃ q0 rs q, Queue_new 3 (fun i => if i = 1 then 99 else 0) 0 = .returned q0 ∧
      runOps q0 [Op.add 10] = .returned (rs, q) ∧
      q.head = 0 ∧ q.tail = 1 ∧ q.size = 1 ∧ liveRange q = [0] ∧ contents q = [10] ∧
      (∀ fuel, Queue_find_reads (fuel + 3) q 0 neverMatch 0 = [0, 1]) ∧
      (∀ fuel, Queue_find (fuel + 2) q 0 sameHandle 99 = .returned (99, q)) ∧
      q.data 1 = 99 ∧ 1 ∉ liveRange q ∧ 99 ∉ contents q := by
  refine ⟨⟨fun i => if i = 1 then 99 else 0, 3, 0, 0, 0, 3⟩, [Res.int 1],
    ⟨Function.update (fun i => if i = 1 then 99 else 0) 0 10, 3, 0, 1, 1, 3⟩,
    ?_, ?_, rfl, rfl, rfl, ?_, ?_, ?_, ?_, ?_, ?_, ?_⟩
  · simp [Queue_new, Queue_empty, Run.bind, blockSlots, PTR_SIZE, SIZE_RANGE, EDEADLK, EAGAIN,
      EINVAL]
  · simp [runOps, step, Queue_add, Run.bind, SIZE_RANGE, EDEADLK, EINVAL]
  · simp [liveRange, List.range_succ]
  · simp [contents, List.range_succ, Function.update]
  · intro fuel
    simp [Queue_find_reads, findLoopReads, neverMatch, SIZE_RANGE, EDEADLK, EAGAIN, EINVAL]
  · intro fuel
    simp [Queue_find, findLoop, sameHandle, Function.update, SIZE_RANGE, EDEADLK, EAGAIN,
      EINVAL]
  · simp [Function.update]
  · simp [liveRange, List.range_succ]
  · simp [contents, List.range_succ, Function.update]

end CircularQueue
